import Mathlib

/-!
Shallow embedding of the coordinate cache of goposm (file src/database/sql/util.go,
package cache part: the delta codec, the bunch table with LRU eviction, and the
coordinate cache facade).  Conventions of the embedding:

* Go int64 arithmetic is modelled on Int with an explicit wrap-around (wrap64)
  applied wherever the Go code computes an int64 sum or difference that can
  overflow; a uint32 conversion is modelled by wrap32.
* element.Node stores Long/Lat as float64 degrees; the codec immediately maps
  them through the fixed-point transform binary.CoordToInt / binary.IntToCoord
  (goposm/binary, not part of the shown source).  Modelled from the spec: the
  transform is a deterministic reversible map from degrees to uint32, so a Node
  is represented here directly by its integer fixed-point coordinates (id as
  int64, long/lat as the uint32 fixed-point values), and record equality is the
  integer fixed-point equality used by the claims.
* Fallible Go code (index-out-of-range panics, nil dereference panics) is
  modelled with Option: none is the panic outcome.
* The Go map table[int64]*CoordsBunch is modelled as an association list, the
  container/list LRU list as a List Int (front = most recently used), and the
  LevelDB-backed store as an association list from bunch id to the stored
  DeltaCoords record.  putCoordsPacked additionally appends each issued store
  write to a ghost writeLog field, instrumenting db.Put calls (the spec asks to
  verify dirty-flush behaviour through store write counts).
* Mutexes serialize access; in this sequential model Lock/Unlock are no-ops.
-/

namespace Goposm

/-- Two-complement wrap-around of signed 64-bit integer arithmetic. -/
def wrap64 (x : Int) : Int :=
  (x + 9223372036854775808) % 18446744073709551616 - 9223372036854775808

/-- Truncation to an unsigned 32-bit value, the uint32 conversion in unpackNodes. -/
def wrap32 (x : Int) : Int := x % 4294967296

/-- One coordinate record: element.Node with Long/Lat already in fixed-point
integer form (see the file header). -/
structure Node where
  id : Int
  long : Int
  lat : Int
deriving DecidableEq, Repr

/-- The protobuf message DeltaCoords: three integer sequences of deltas. -/
structure DeltaCoords where
  ids : List Int
  lats : List Int
  lons : List Int
deriving DecidableEq, Repr

/-- Loop of packNodes: walks the nodes accumulating lastId/lastLon/lastLat and
emits the delta sequences (ids, lons, lats), exactly as the Go loop does. -/
def packLoop : Int → Int → Int → List Node → List Int × List Int × List Int
  | _, _, _, [] => ([], [], [])
  | lastId, lastLon, lastLat, nd :: rest =>
    let lon := nd.long
    let lat := nd.lat
    let r := packLoop nd.id lon lat rest
    (wrap64 (nd.id - lastId) :: r.1, wrap64 (lon - lastLon) :: r.2.1,
      wrap64 (lat - lastLat) :: r.2.2)

/-- packNodes: delta-encodes a node sequence into a DeltaCoords record. -/
def packNodes (nodes : List Node) : DeltaCoords :=
  let r := packLoop 0 0 0 nodes
  { ids := r.1, lats := r.2.2, lons := r.2.1 }

/-- Loop of unpackNodes.  The iteration is bounded by the Ids sequence; reading
Lats[i] or Lons[i] past their length is the index-out-of-range panic, hence
none.  Note the source adds the Lats delta into the lon accumulator and the
Lons delta into the lat accumulator (util.go lines 204-205). -/
def unpackLoop : Int → Int → Int → List Int → List Int → List Int → Option (List Node)
  | _, _, _, [], _, _ => some []
  | lastId, lastLon, lastLat, di :: ids, lats, lons =>
    match lats, lons with
    | dlat :: lats2, dlon :: lons2 =>
      let id := wrap64 (lastId + di)
      let lon := wrap64 (lastLon + dlat)
      let lat := wrap64 (lastLat + dlon)
      (unpackLoop id lon lat ids lats2 lons2).map
        (fun rest => { id := id, long := wrap32 lon, lat := wrap32 lat } :: rest)
    | _, _ => none

/-- unpackNodes: decodes a DeltaCoords record by running prefix sums. -/
def unpackNodes (dc : DeltaCoords) : Option (List Node) :=
  unpackLoop 0 0 0 dc.ids dc.lats dc.lons

/-- getBunchId: nodeId / 64 with Go (truncated) int64 division. -/
def getBunchId (nodeId : Int) : Int := Int.tdiv nodeId 64

/-- The zero value element.Node{} returned by a failed GetCoord. -/
def emptyNode : Node := { id := 0, long := 0, lat := 0 }

/-- Swap of the two coordinate fields of a record; what one decode of one
encode actually produces (see the theorems on claim C1). -/
def swapNode (nd : Node) : Node := { id := nd.id, long := nd.lat, lat := nd.long }

/-- Well-formed record: id is an int64 value and the two fixed-point
coordinates are uint32 values (which binary.CoordToInt always yields). -/
def NodeWF (nd : Node) : Prop :=
  -9223372036854775808 ≤ nd.id ∧ nd.id < 9223372036854775808 ∧
    0 ≤ nd.long ∧ nd.long < 4294967296 ∧ 0 ≤ nd.lat ∧ nd.lat < 4294967296

instance (nd : Node) : Decidable (NodeWF nd) := by
  unfold NodeWF; infer_instance

/-- CoordsBunch: one resident bunch.  The elem back-reference into the LRU
list is modelled by membership of id in the lruList of the cache state. -/
structure CoordsBunch where
  id : Int
  coords : List Node
  needsWrite : Bool
deriving DecidableEq, Repr

/-- DeltaCoordsCache.  table is the Go map (association list, key = bunch id),
lruList the container/list recency list (head = front = most recently used),
store the backing key-value store (association list with shadowing: the most
recent entry for a key is found first), freeNodes the recycled-buffer pool and
capacity the int64 capacity field.  writeLog is ghost instrumentation: every
db.Put issued by putCoordsPacked is also appended here. -/
structure CacheState where
  table : List (Int × CoordsBunch)
  lruList : List Int
  store : List (Int × DeltaCoords)
  freeNodes : List (List Node)
  capacity : Int
  writeLog : List (Int × DeltaCoords)
deriving DecidableEq, Repr

/-- Lookup in the Go map table. -/
def tableGet (t : List (Int × CoordsBunch)) (bid : Int) : Option CoordsBunch :=
  (t.find? (fun p => p.1 = bid)).map (fun p => p.2)

/-- Write through the pointer held for bunch bid: if the id is still in the
table the entry is replaced, otherwise the bunch is an evicted orphan and the
write is invisible to the table. -/
def tableSet (t : List (Int × CoordsBunch)) (bid : Int) (b : CoordsBunch) :
    List (Int × CoordsBunch) :=
  t.map (fun p => if p.1 = bid then (bid, b) else p)

/-- delete(self.table, bunchId). -/
def tableErase (t : List (Int × CoordsBunch)) (bid : Int) : List (Int × CoordsBunch) :=
  t.eraseP (fun p => p.1 = bid)

/-- Point read from the backing store (db.Get): absent key yields none. -/
def storeGet (st : List (Int × DeltaCoords)) (bid : Int) : Option DeltaCoords :=
  (st.find? (fun p => p.1 = bid)).map (fun p => p.2)

/-- Point write to the backing store (db.Put); the new entry shadows any
previous entry for the same key. -/
def storePut (st : List (Int × DeltaCoords)) (bid : Int) (dc : DeltaCoords) :
    List (Int × DeltaCoords) :=
  (bid, dc) :: st

/-- lruList.MoveToFront of the element holding bid. -/
def moveToFront (lru : List Int) (bid : Int) : List Int :=
  bid :: lru.erase bid

/-- putCoordsPacked: no write for an empty sequence, otherwise packNodes and
db.Put under the key derived from bunchId (the signed-varint key encoding is
injective on the ids that fit it, so the key is modelled by the id itself).
The ghost writeLog records the issued write. -/
def putCoordsPacked (s : CacheState) (bunchId : Int) (nodes : List Node) : CacheState :=
  if nodes = [] then s
  else { s with store := storePut s.store bunchId (packNodes nodes),
                writeLog := s.writeLog ++ [(bunchId, packNodes nodes)] }

/-- getCoordsPacked: absent key gives the cleared buffer (empty sequence, not
an error); a present record is decoded by unpackNodes, whose panic on
malformed data propagates as none.  The recycled buffer argument of the Go
function only pre-allocates storage and never influences the returned
content (it is either cleared or fully overwritten), so it is dropped here. -/
def getCoordsPacked (s : CacheState) (bunchId : Int) : Option (List Node) :=
  match storeGet s.store bunchId with
  | none => some []
  | some dc => unpackNodes dc

/-- Eviction of one identified bunch: drop the Back element of the recency
list, flush the bunch if dirty, recycle its buffer, delete it from the
table. -/
def evictState (s : CacheState) (bid : Int) (bunch : CoordsBunch) : CacheState :=
  let s1 : CacheState := { s with lruList := s.lruList.dropLast }
  let s2 := if bunch.needsWrite then putCoordsPacked s1 bid bunch.coords else s1
  { s2 with freeNodes := s2.freeNodes ++ [bunch.coords],
            table := tableErase s2.table bid }

/-- One pass of the CheckCapacity eviction loop: evict the bunch at the Back
of the recency list.  A nil Back element or a missing table entry is a
nil-dereference panic, hence none. -/
def evictOne (s : CacheState) : Option CacheState :=
  (s.lruList.getLast?).bind (fun bid =>
    (tableGet s.table bid).map (fun bunch => evictState s bid bunch))

/-- The CheckCapacity eviction loop, with an explicit iteration bound.  Each
pass removes one table entry, so a bound equal to the table size makes the
bounded loop behave exactly like the unbounded Go loop (checkCapacity below
instantiates it that way). -/
def checkCapacityFuel : Nat → CacheState → Option CacheState
  | 0, s => if (s.table.length : Int) > s.capacity then none else some s
  | fuel + 1, s =>
    if (s.table.length : Int) > s.capacity then
      (evictOne s).bind (checkCapacityFuel fuel)
    else some s

/-- CheckCapacity: evict least-recently-used bunches (flushing dirty ones)
while the resident count exceeds capacity. -/
def checkCapacity (s : CacheState) : Option CacheState :=
  checkCapacityFuel s.table.length s

/-- getBunch: on a hit move the bunch to the front of the recency list; on a
miss push the id to the front, take a recycled buffer if available, load and
decode from the store, insert the new bunch; in both cases run CheckCapacity
and hand the (exclusively locked) bunch back.  The returned CoordsBunch value
is the state of the bunch object at lock time; CheckCapacity never changes
the coords/needsWrite fields of the object itself. -/
def getBunch (s : CacheState) (bunchId : Int) : Option (CoordsBunch × CacheState) :=
  match tableGet s.table bunchId with
  | some bunch =>
    let s1 : CacheState := { s with lruList := moveToFront s.lruList bunchId }
    (checkCapacity s1).map (fun s2 => (bunch, s2))
  | none =>
    let lru1 := bunchId :: s.lruList
    let free1 := s.freeNodes.dropLast
    match getCoordsPacked s bunchId with
    | none => none
    | some nodes =>
      let bunch : CoordsBunch := { id := bunchId, coords := nodes, needsWrite := false }
      let s1 : CacheState := { s with lruList := lru1, freeNodes := free1,
                                      table := s.table ++ [(bunchId, bunch)] }
      (checkCapacity s1).map (fun s2 => (bunch, s2))

/-- Ordering used by sort.Sort(Nodes(...)): Less compares Id. -/
def nodeLe (a b : Node) : Prop := a.id ≤ b.id

instance : DecidableRel nodeLe := fun a b => inferInstanceAs (Decidable (a.id ≤ b.id))

instance : IsTotal Node nodeLe := ⟨fun a b => Int.le_total a.id b.id⟩

instance : IsTrans Node nodeLe := ⟨fun _ _ _ => Int.le_trans⟩

/-- sort.Sort(Nodes(bunch.coords)): some sort of the sequence by id (Go uses
an unstable sort; any id-sorting permutation is an admissible model and on
duplicate-free ids they all agree). -/
def sortNodes (l : List Node) : List Node := List.insertionSort nodeLe l

/-- One flush of the PutCoords loop: acquire the bunch of the finished run,
append the run, re-sort, mark dirty, release. -/
def flushRun (s : CacheState) (cur : Int) (seg : List Node) : Option CacheState :=
  (getBunch s cur).map (fun r =>
    let b := r.1
    let b2 : CoordsBunch := { b with coords := sortNodes (b.coords ++ seg), needsWrite := true }
    { r.2 with table := tableSet r.2.table cur b2 })

/-- The PutCoords scan: pending is nodes[start:i], cur is currentBunchId; when
the bunch id of the next node differs the pending run is flushed, and the
trailing run is flushed after the scan. -/
def putLoop (s : CacheState) (pending : List Node) (cur : Int) :
    List Node → Option CacheState
  | [] => flushRun s cur pending
  | n :: rest =>
    if getBunchId n.id = cur then putLoop s (pending ++ [n]) cur rest
    else
      match flushRun s cur pending with
      | none => none
      | some s2 => putLoop s2 [n] (getBunchId n.id) rest

/-- PutCoords.  Reading nodes[0] of an empty input is an index-out-of-range
panic, hence none. -/
def putCoords (s : CacheState) (nodes : List Node) : Option CacheState :=
  match nodes with
  | [] => none
  | n :: _ => putLoop s [] (getBunchId n.id) nodes

/-- Body of GetCoord after the bunch is acquired: binary search the sorted
sequence and compare the hit.  sort.Search is modelled by its documented
contract: the least index at which the predicate (coords[i].Id >= id) holds,
which is what the Go binary search returns whenever the predicate is
monotone, as the bunch sortedness invariant guarantees. -/
def searchNode (l : List Node) (id : Int) : Node × Bool :=
  match l.get? (l.findIdx (fun nd => id ≤ nd.id)) with
  | some nd => if nd.id = id then (nd, true) else (emptyNode, false)
  | none => (emptyNode, false)

/-- GetCoord: acquire the bunch of id and binary-search its sorted sequence. -/
def getCoord (s : CacheState) (id : Int) : Option (Node × Bool × CacheState) :=
  (getBunch s (getBunchId id)).map (fun r =>
    ((searchNode r.1.coords id).1, (searchNode r.1.coords id).2, r.2))

/-- element.Way restricted to the fields FillWay uses. -/
structure Way where
  refs : List Int
  nodes : List Node
deriving DecidableEq, Repr

/-- Loop of FillWay: way.Nodes is pre-allocated with zero values and filled
index by index; on the first unresolved reference the loop stops with false,
leaving the remaining slots at the zero value (which is also what the failed
GetCoord assigned). -/
def fillLoop (s : CacheState) : List Int → Option (Bool × List Node × CacheState)
  | [] => some (true, [], s)
  | r :: rest =>
    (getCoord s r).bind (fun q =>
      if q.2.1 then
        (fillLoop q.2.2 rest).map (fun q2 => (q2.1, q.1 :: q2.2.1, q2.2.2))
      else
        some (false, q.1 :: List.replicate rest.length emptyNode, q.2.2))

/-- FillWay: a nil way is rejected up front; otherwise each reference is
resolved in order through GetCoord, all-or-nothing. -/
def fillWay (s : CacheState) (way : Option Way) : Option (Bool × Option Way × CacheState) :=
  match way with
  | none => some (false, none, s)
  | some w =>
    (fillLoop s w.refs).map (fun q => (q.1, some { w with nodes := q.2.1 }, q.2.2))

/-- One entry of the Close loop: flush the bunch if it needs a write. -/
def closeStep (acc : CacheState) (p : Int × CoordsBunch) : CacheState :=
  if p.2.needsWrite then putCoordsPacked acc p.1 p.2.coords else acc

/-- Close: flush every resident dirty bunch through putCoordsPacked (the Go
code ranges over the map; the table order of the model is one admissible
iteration order), then close the underlying store (outside the model). -/
def closeCache (s : CacheState) : CacheState :=
  s.table.foldl closeStep s

/-- NewDeltaCoordsCache: fresh empty cache over an (already opened) store. -/
def newDeltaCoordsCache (store : List (Int × DeltaCoords)) : CacheState :=
  { table := [], lruList := [], store := store, freeNodes := [],
    capacity := 8192, writeLog := [] }

/-- A fresh empty cache with explicit capacity (the capacity field is set once
at construction; theorems about eviction quantify over it). -/
def emptyCache (c : Int) : CacheState :=
  { table := [], lruList := [], store := [], freeNodes := [],
    capacity := c, writeLog := [] }

/-- Acquire (getBunch followed by the no-op Unlock) each bunch id of a list in
order, threading the cache state. -/
def acquireAll (s : CacheState) (bs : List Int) : Option CacheState :=
  bs.foldlM (fun t b => (getBunch t b).map (fun r => r.2)) s

/-- The bunch invariant on a coordinate sequence: sorted strictly ascending by
identifier, which is exactly sorted ascending with at most one record per
identifier. -/
def CoordsInv (l : List Node) : Prop := l.Pairwise (fun a b => a.id < b.id)

instance (l : List Node) : Decidable (CoordsInv l) := by
  unfold CoordsInv; infer_instance

/-- Every resident bunch satisfies the bunch invariant. -/
def TableInv (s : CacheState) : Prop := ∀ p ∈ s.table, CoordsInv p.2.coords

instance (s : CacheState) : Decidable (TableInv s) := by
  unfold TableInv; infer_instance

/-- A clean bunch fresh from an empty store entry. -/
def emptyBunch (b : Int) : CoordsBunch := { id := b, coords := [], needsWrite := false }

/-- Shape of a cache over an empty store after acquiring a sequence of
distinct bunch ids: ids is the recency list (most recent first), and the
table holds exactly those ids (in insertion order, which is the reverse of
recency order), each bunch clean and empty. -/
def mkAcquired (c : Nat) (ids : List Int) (free : List (List Node)) : CacheState :=
  { table := ids.reverse.map (fun i => (i, emptyBunch i)), lruList := ids,
    store := [], freeNodes := free, capacity := (c : Int), writeLog := [] }

/-- All records of a sequence are well formed. -/
def NodesWF (l : List Node) : Prop := ∀ nd ∈ l, NodeWF nd

instance (l : List Node) : Decidable (NodesWF l) := by
  unfold NodesWF; infer_instance

/-- Full bunch-content invariant: sorted strictly by id and well formed. -/
def CoordsOk (l : List Node) : Prop := CoordsInv l ∧ NodesWF l

instance (l : List Node) : Decidable (CoordsOk l) := by
  unfold CoordsOk; infer_instance

/-- Every resident bunch content satisfies the full invariant. -/
def TableOk (s : CacheState) : Prop := ∀ p ∈ s.table, CoordsOk p.2.coords

instance (s : CacheState) : Decidable (TableOk s) := by
  unfold TableOk; infer_instance

/-- Every persisted record is the encoding of some sequence satisfying the
full invariant (which is what putCoordsPacked ever writes). -/
def StoreOk (s : CacheState) : Prop :=
  ∀ p ∈ s.store, ∃ l, CoordsOk l ∧ p.2 = packNodes l

/-- The whole-cache invariant used by the preservation theorems. -/
def Inv (s : CacheState) : Prop := TableOk s ∧ StoreOk s

/-- Identifier i occurs nowhere in the cache: in no resident bunch and in no
decoding of a persisted record. -/
def FreshId (s : CacheState) (i : Int) : Prop :=
  (∀ p ∈ s.table, ∀ nd ∈ p.2.coords, nd.id ≠ i) ∧
  (∀ p ∈ s.store, ∀ nds, unpackNodes p.2 = some nds → ∀ nd ∈ nds, nd.id ≠ i)

/-- Pure observer used to specify GetCoord on resident bunches: the record
with the given identifier in the resident bunch of its partition, if any. -/
def residentLookup (s : CacheState) (id : Int) : Option Node :=
  match tableGet s.table (getBunchId id) with
  | none => none
  | some b => b.coords.find? (fun nd => nd.id = id)

/-- Conclusion of claim C6: when every reference id has a record in its
(resident) bunch, FillWay succeeds and returns exactly those records in
input-reference order; when at least one reference id has none, FillWay
fails with ok = false. -/
def C6Conc (s : CacheState) (w : Way) : Prop :=
  (∀ recs, w.refs.mapM (residentLookup s) = some recs →
    ∃ s2, fillWay s (some w) = some (true, some { w with nodes := recs }, s2)) ∧
  ((∃ r ∈ w.refs, residentLookup s r = none) →
    ∃ w2 s2, fillWay s (some w) = some (false, w2, s2))

/-- Conclusion of the amended claim C5: loading preserves the whole-cache
invariant outright, and PutCoords preserves it for sorted well-formed input
whose identifiers are nowhere in the cache yet. -/
def C5Preserved (s : CacheState) : Prop :=
  (∀ bid b s2, getBunch s bid = some (b, s2) → Inv s2 ∧ CoordsOk b.coords) ∧
  (∀ nodes s2, nodes.Pairwise (fun a b => a.id < b.id) → NodesWF nodes →
    (∀ nd ∈ nodes, FreshId s nd.id) → putCoords s nodes = some s2 → Inv s2)

/-- The store writes that flushing a table issues: one write per dirty entry,
in table order, each carrying the packed coordinates of that entry. -/
def dirtyWrites (t : List (Int × CoordsBunch)) : List (Int × DeltaCoords) :=
  (t.filter (fun p => p.2.needsWrite)).map (fun p => (p.1, packNodes p.2.coords))

/-- Conclusion of claim C4.  Close issues exactly one store write per resident
dirty bunch (so zero writes for clean ones) and afterwards the store holds
each dirty bunch content under its key; the eviction loop only ever writes
the packed content of a then-resident dirty bunch (zero writes for clean
ones), and any dirty bunch it removes from the table is persisted. -/
def C4Conc (s : CacheState) : Prop :=
  ((closeCache s).writeLog = s.writeLog ++ dirtyWrites s.table ∧
    ∀ p ∈ s.table, p.2.needsWrite = true →
      storeGet (closeCache s).store p.1 = some (packNodes p.2.coords)) ∧
  ∀ s2, checkCapacity s = some s2 →
    ∃ evs, s2.writeLog = s.writeLog ++ evs ∧
      (∀ e ∈ evs, ∃ b2, (e.1, b2) ∈ s.table ∧ b2.needsWrite = true ∧
        e.2 = packNodes b2.coords) ∧
      (∀ p ∈ s.table, p ∈ s2.table ∨ (p.2.needsWrite = true →
        storeGet s2.store p.1 = some (packNodes p.2.coords)))

end Goposm

namespace Goposm

/-! Theorems.  Each claim of the specification is settled below; helper
lemmas precede the claim theorems they support. -/

/-- Claim C1 (code bug).  The spec demands Decode(Encode(records)) == records
for identifier-sorted duplicate-free input, but the decoder adds the Lats
deltas into the longitude accumulator and the Lons deltas into the latitude
accumulator, so one encode/decode trip transposes the two coordinates: on the
single sorted record (id 1, long 2, lat 3) the code returns (id 1, long 3,
lat 2), not the original record. -/
theorem c1_unpack_pack_swaps_coordinates :
    unpackNodes (packNodes [{ id := 1, long := 2, lat := 3 }]) ≠
      some [{ id := 1, long := 2, lat := 3 }] ∧
    unpackNodes (packNodes [{ id := 1, long := 2, lat := 3 }]) =
      some [swapNode { id := 1, long := 2, lat := 3 }] := by
  decide

/-- Claim C2 (code bug).  Partitioning itself follows bunchId = id / 64, but
GetCoord after a PutCoords containing the record does not always return that
same record: with capacity 1, putting the sorted records (id 1, long 2,
lat 3) and (id 65, long 4, lat 5) makes the put of bunch 1 evict and flush
dirty bunch 0, and the subsequent GetCoord(1) reloads bunch 0 through the
lat/lon-transposing decoder, returning found = true but the record
(id 1, long 3, lat 2) instead of the one that was put. -/
theorem c2_get_after_put_returns_transposed_record :
    getBunchId 1 = 0 ∧ getBunchId 65 = 1 ∧
    ((putCoords (emptyCache 1) [{ id := 1, long := 2, lat := 3 },
        { id := 65, long := 4, lat := 5 }]).bind
      (fun s => getCoord s 1)).map (fun r => (r.1, r.2.1)) =
      some ({ id := 1, long := 3, lat := 2 }, true) ∧
    ({ id := 1, long := 3, lat := 2 } : Node) ≠ { id := 1, long := 2, lat := 3 } := by
  decide

/-- Claim C7, counterexample.  FillWay on a non-nil way whose reference list
is nil/empty returns ok = true with an empty node list, an empty success,
contradicting the claim that an absent reference list is a failure. -/
theorem c7_empty_refs_is_empty_success :
    fillWay (emptyCache 8192) (some { refs := [], nodes := [] }) =
      some (true, some { refs := [], nodes := [] }, emptyCache 8192) := by
  decide

/-- Claim C7 as amended: only a nil way itself is rejected (ok = false); a
non-nil way whose reference list is nil/empty is an empty success: ok = true
with an empty node list. -/
theorem c7_amended_nil_way_fails_empty_refs_succeed (s : CacheState) (w : Way)
    (h : w.refs = []) :
    fillWay s none = some (false, none, s) ∧
    fillWay s (some w) = some (true, some { w with nodes := [] }, s) := by
  refine ⟨rfl, ?_⟩
  simp [fillWay, h, fillLoop]

theorem c7_amended_witness :
    ({ refs := [], nodes := [] } : Way).refs = [] ∧
    (fillWay (emptyCache 8192) none = some (false, none, emptyCache 8192) ∧
     fillWay (emptyCache 8192) (some { refs := [], nodes := [] }) =
       some (true, some { refs := [], nodes := [] }, emptyCache 8192)) :=
  ⟨rfl, c7_amended_nil_way_fails_empty_refs_succeed (emptyCache 8192)
    { refs := [], nodes := [] } rfl⟩

/-- Claim C8.  Loading a bunch whose key is absent from the backing store is
not an error: getCoordsPacked yields the empty sequence. -/
theorem c8_absent_key_loads_empty (s : CacheState) (bunchId : Int)
    (h : storeGet s.store bunchId = none) :
    getCoordsPacked s bunchId = some [] := by
  unfold getCoordsPacked
  rw [h]

theorem c8_absent_key_loads_empty_witness :
    storeGet (emptyCache 8192).store 7 = none ∧
    getCoordsPacked (emptyCache 8192) 7 = some [] :=
  ⟨rfl, c8_absent_key_loads_empty (emptyCache 8192) 7 rfl⟩

/-- Helper for C9: the decode loop hits an index-out-of-range as soon as the
Lats or Lons sequence is exhausted before the Ids sequence. -/
theorem unpackLoop_short_none (ids lats lons : List Int) (a b c : Int)
    (h : lats.length < ids.length ∨ lons.length < ids.length) :
    unpackLoop a b c ids lats lons = none := by
  induction ids generalizing lats lons a b c with
  | nil => simp at h
  | cons di ids ih =>
    match lats, lons with
    | [], _ => rfl
    | _ :: _, [] => rfl
    | dlat :: lats2, dlon :: lons2 =>
      have h2 : lats2.length < ids.length ∨ lons2.length < ids.length := by
        simpa using h
      simp only [unpackLoop]
      rw [ih _ _ _ _ _ h2]
      rfl

/-- Claim C9.  A stored record whose Lats or Lons sequence is shorter than its
Ids sequence makes unpackNodes panic (no normal result), and the failure
propagates out of the load path getCoordsPacked to its caller. -/
theorem c9_mismatched_lengths_are_corruption (dc : DeltaCoords)
    (h : dc.lats.length < dc.ids.length ∨ dc.lons.length < dc.ids.length) :
    unpackNodes dc = none ∧
    ∀ (s : CacheState) (bunchId : Int), storeGet s.store bunchId = some dc →
      getCoordsPacked s bunchId = none := by
  have hu : unpackNodes dc = none := unpackLoop_short_none _ _ _ _ _ _ h
  refine ⟨hu, fun s bunchId hs => ?_⟩
  unfold getCoordsPacked
  rw [hs]
  exact hu

theorem c9_mismatched_lengths_witness :
    (([] : List Int).length < ([0] : List Int).length ∨
      ([] : List Int).length < ([0] : List Int).length) ∧
    (unpackNodes { ids := [0], lats := [], lons := [] } = none ∧
     ∀ (s : CacheState) (bunchId : Int),
       storeGet s.store bunchId = some { ids := [0], lats := [], lons := [] } →
         getCoordsPacked s bunchId = none) :=
  ⟨Or.inl (by decide),
    c9_mismatched_lengths_are_corruption { ids := [0], lats := [], lons := [] }
      (Or.inl (by decide))⟩

/-- Claim C10.  PutCoords reads nodes[0] before anything else, so the empty
input panics (none) against any cache state, and the operation is safe only
under the non-empty precondition; a singleton input on a fresh cache goes
through normally. -/
theorem c10_put_coords_empty_input_panics :
    (∀ s : CacheState, putCoords s [] = none) ∧
    (putCoords (emptyCache 8192) [{ id := 1, long := 2, lat := 3 }]).isSome = true := by
  exact ⟨fun s => rfl, by decide⟩

/-- Lookup after consing one table entry. -/
theorem tableGet_cons (k : Int) (v : CoordsBunch) (t : List (Int × CoordsBunch)) (b : Int) :
    tableGet ((k, v) :: t) b = if k = b then some v else tableGet t b := by
  by_cases h : k = b
  · simp [tableGet, List.find?_cons_of_pos, h]
  · simp [tableGet, List.find?_cons_of_neg, h]

/-- Lookup of an id absent from an id-keyed table of empty bunches. -/
theorem tableGet_emptyBunches_of_not_mem (l : List Int) (b : Int) (h : b ∉ l) :
    tableGet (l.map (fun i => (i, emptyBunch i))) b = none := by
  induction l with
  | nil => rfl
  | cons a l ih =>
    simp only [List.mem_cons, not_or] at h
    rw [List.map_cons, tableGet_cons, if_neg (fun hab => h.1 hab.symm)]
    exact ih h.2

/-- Lookup of an id present in an id-keyed table of empty bunches. -/
theorem tableGet_emptyBunches_of_mem (l : List Int) (b : Int) (h : b ∈ l) :
    tableGet (l.map (fun i => (i, emptyBunch i))) b = some (emptyBunch b) := by
  induction l with
  | nil => cases h
  | cons a l ih =>
    rw [List.map_cons, tableGet_cons]
    by_cases hab : a = b
    · rw [if_pos hab, hab]
    · rw [if_neg hab]
      rcases List.mem_cons.mp h with h1 | h2
      · exact absurd h1.symm hab
      · exact ih h2

/-- The eviction loop stops at once when the table is within capacity. -/
theorem checkCapacityFuel_of_le (f : Nat) (s : CacheState)
    (h : (s.table.length : Int) ≤ s.capacity) : checkCapacityFuel f s = some s := by
  cases f <;> simp [checkCapacityFuel, not_lt.mpr h]

/-- Equation lemma: getBunch on a hit. -/
theorem getBunch_hit (s : CacheState) (b : Int) (bunch : CoordsBunch)
    (h1 : tableGet s.table b = some bunch) :
    getBunch s b =
      (checkCapacity { s with lruList := moveToFront s.lruList b }).map
        (fun s2 => (bunch, s2)) := by
  unfold getBunch
  rw [h1]

/-- Equation lemma: getBunch on a miss whose load succeeds. -/
theorem getBunch_miss (s : CacheState) (b : Int) (nodes : List Node)
    (h1 : tableGet s.table b = none) (h2 : getCoordsPacked s b = some nodes) :
    getBunch s b =
      (checkCapacity
          { s with
            lruList := b :: s.lruList
            freeNodes := s.freeNodes.dropLast
            table := s.table ++ [(b, { id := b, coords := nodes, needsWrite := false })] }).map
        (fun s2 => (({ id := b, coords := nodes, needsWrite := false } : CoordsBunch), s2)) := by
  unfold getBunch
  rw [h1, h2]

/-- Equation lemma: one pass of the eviction loop over a clean back bunch. -/
theorem checkCapacityFuel_evict_clean (f : Nat) (s : CacheState) (bid : Int)
    (bunch : CoordsBunch) (hgt : (s.table.length : Int) > s.capacity)
    (h1 : s.lruList.getLast? = some bid) (h2 : tableGet s.table bid = some bunch)
    (h3 : bunch.needsWrite = false) :
    checkCapacityFuel (f + 1) s = checkCapacityFuel f
      { s with lruList := s.lruList.dropLast,
               freeNodes := s.freeNodes ++ [bunch.coords],
               table := tableErase s.table bid } := by
  simp only [checkCapacityFuel]
  rw [if_pos hgt]
  unfold evictOne evictState
  rw [h1]
  simp only [Option.some_bind, h2, Option.map_some', Option.some_bind, h3]
  rfl

/-- Equation lemma: one pass of the eviction loop over a dirty back bunch
with non-empty content, which flushes the bunch through putCoordsPacked
before dropping it. -/
theorem checkCapacityFuel_evict_dirty (f : Nat) (s : CacheState) (bid : Int)
    (bunch : CoordsBunch) (hgt : (s.table.length : Int) > s.capacity)
    (h1 : s.lruList.getLast? = some bid) (h2 : tableGet s.table bid = some bunch)
    (h3 : bunch.needsWrite = true) (h4 : bunch.coords ≠ []) :
    checkCapacityFuel (f + 1) s = checkCapacityFuel f
      { s with lruList := s.lruList.dropLast,
               store := storePut s.store bid (packNodes bunch.coords),
               writeLog := s.writeLog ++ [(bid, packNodes bunch.coords)],
               freeNodes := s.freeNodes ++ [bunch.coords],
               table := tableErase s.table bid } := by
  simp only [checkCapacityFuel]
  rw [if_pos hgt]
  unfold evictOne evictState
  rw [h1]
  simp only [Option.some_bind, h2, Option.map_some', Option.some_bind, h3, if_true]
  unfold putCoordsPacked
  rw [if_neg h4]

/-- The eviction check is the identity when the table is within capacity. -/
theorem checkCapacity_of_le (s : CacheState) (h : (s.table.length : Int) ≤ s.capacity) :
    checkCapacity s = some s :=
  checkCapacityFuel_of_le s.table.length s h

/-- One fresh acquisition over an empty store: the new bunch goes to the front
of the recency list and, when the capacity was already full, exactly the back
bunch is evicted; the result is again a cache of the canonical shape with
recency list (b :: ids).take c. -/
theorem getBunch_mkAcquired_fresh (c : Nat) (hc : 1 ≤ c) (ids : List Int)
    (free : List (List Node)) (b : Int) (hb : b ∉ ids) (hlen : ids.length ≤ c) :
    ∃ free2, getBunch (mkAcquired c ids free) b =
      some (emptyBunch b, mkAcquired c ((b :: ids).take c) free2) := by
  have htget : tableGet (mkAcquired c ids free).table b = none := by
    have hbr : b ∉ ids.reverse := by
      rw [List.mem_reverse]
      exact hb
    exact tableGet_emptyBunches_of_not_mem _ _ hbr
  have hload : getCoordsPacked (mkAcquired c ids free) b = some [] := rfl
  rw [getBunch_miss _ _ _ htget hload]
  have hs1 : ({ mkAcquired c ids free with
                lruList := b :: (mkAcquired c ids free).lruList
                freeNodes := (mkAcquired c ids free).freeNodes.dropLast
                table := (mkAcquired c ids free).table ++
                  [(b, { id := b, coords := [], needsWrite := false })] } : CacheState) =
      mkAcquired c (b :: ids) free.dropLast := by
    simp [mkAcquired, emptyBunch, List.reverse_cons]
  rw [hs1]
  have hlen1 : (mkAcquired c (b :: ids) free.dropLast).table.length = ids.length + 1 := by
    simp [mkAcquired]
  rcases Nat.lt_or_ge ids.length c with hlt | hge
  · -- within capacity: no eviction
    refine ⟨free.dropLast, ?_⟩
    have hcap : checkCapacity (mkAcquired c (b :: ids) free.dropLast) =
        some (mkAcquired c (b :: ids) free.dropLast) := by
      apply checkCapacityFuel_of_le
      rw [hlen1]
      simp only [mkAcquired]
      push_cast
      omega
    rw [hcap]
    have hids : (b :: ids).take c = b :: ids := by
      apply List.take_of_length_le
      simp only [List.length_cons]
      omega
    rw [hids]
    simp only [Option.map_some']
    rfl
  · -- capacity already full: evict the back of the recency list
    have heq : ids.length = c := Nat.le_antisymm hlen hge
    have hne : ids ≠ [] := by
      intro h0
      rw [h0] at heq
      simp at heq
      omega
    refine ⟨free.dropLast ++ [[]], ?_⟩
    have hlast : (mkAcquired c (b :: ids) free.dropLast).lruList.getLast? =
        some (ids.getLast hne) := by
      show (b :: ids).getLast? = some (ids.getLast hne)
      rw [List.getLast?_eq_getLast (b :: ids) (by simp), List.getLast_cons hne]
    have hmem : ids.getLast hne ∈ b :: ids := List.mem_cons_of_mem b (List.getLast_mem hne)
    have hget : tableGet (mkAcquired c (b :: ids) free.dropLast).table (ids.getLast hne) =
        some (emptyBunch (ids.getLast hne)) := by
      apply tableGet_emptyBunches_of_mem
      rw [List.mem_reverse]
      exact hmem
    unfold checkCapacity
    rw [hlen1, heq]
    rw [checkCapacityFuel_evict_clean c _ (ids.getLast hne) _
      (by rw [hlen1, heq]; simp only [mkAcquired]; push_cast; omega) hlast hget rfl]
    have hrev : ids.reverse = ids.getLast hne :: ids.dropLast.reverse := by
      conv_lhs => rw [← List.dropLast_append_getLast hne]
      simp
    have hstate : ({ mkAcquired c (b :: ids) free.dropLast with
        lruList := (mkAcquired c (b :: ids) free.dropLast).lruList.dropLast,
        freeNodes := (mkAcquired c (b :: ids) free.dropLast).freeNodes ++
          [(emptyBunch (ids.getLast hne)).coords],
        table := tableErase (mkAcquired c (b :: ids) free.dropLast).table
          (ids.getLast hne) } : CacheState) =
        mkAcquired c (b :: ids.dropLast) (free.dropLast ++ [[]]) := by
      simp only [mkAcquired, emptyBunch, List.reverse_cons]
      congr 1
      · -- table after erasing the entry of the back id
        rw [hrev]
        simp only [List.map_append, List.map_cons, List.map_nil]
        unfold tableErase
        simp
      · -- recency list after dropping the back element
        rcases ids with _ | ⟨i0, ids2⟩
        · exact absurd rfl hne
        · rfl
    rw [hstate]
    have hshort : (mkAcquired c (b :: ids.dropLast) (free.dropLast ++ [[]])).table.length = c := by
      simp only [mkAcquired, List.length_map, List.length_reverse, List.length_cons]
      rw [List.length_dropLast]
      omega
    rw [checkCapacityFuel_of_le _ _ (by rw [hshort]; simp only [mkAcquired]; omega)]
    have hids : (b :: ids).take c = b :: ids.dropLast := by
      rw [List.dropLast_eq_take, heq]
      rcases Nat.exists_eq_add_of_le hc with ⟨c2, hc2⟩
      subst hc2
      rw [Nat.add_comm 1 c2, List.take_succ_cons, Nat.add_sub_cancel]
    rw [hids]
    simp only [Option.map_some']
    rfl

/-- Taking c of an append whose right part is already truncated at c. -/
theorem take_append_take {α : Type} (l m : List α) (c : Nat) :
    (l ++ m.take c).take c = (l ++ m).take c := by
  rw [List.take_append_eq_append_take, List.take_append_eq_append_take, List.take_take]
  rw [Nat.min_def, if_pos (Nat.sub_le c l.length)]

/-- Acquiring a sequence of distinct fresh bunch ids from a cache of the
canonical shape keeps the canonical shape: the recency list becomes the
acquired ids (most recent first, prefixed to the previous ones) truncated to
the capacity. -/
theorem acquireAll_mkAcquired (c : Nat) (hc : 1 ≤ c) (bs : List Int) :
    ∀ (ids : List Int) (free : List (List Node)),
      bs.Nodup → (∀ x ∈ bs, x ∉ ids) → ids.length ≤ c →
      ∃ free2, acquireAll (mkAcquired c ids free) bs =
        some (mkAcquired c ((bs.reverse ++ ids).take c) free2) := by
  induction bs with
  | nil =>
    intro ids free _ _ hlen
    refine ⟨free, ?_⟩
    rw [show (([] : List Int).reverse ++ ids) = ids by simp,
      List.take_of_length_le hlen]
    rfl
  | cons b bs ih =>
    intro ids free hnd hfresh hlen
    obtain ⟨free1, hstep⟩ :=
      getBunch_mkAcquired_fresh c hc ids free b (hfresh b (by simp)) hlen
    have hfresh2 : ∀ x ∈ bs, x ∉ (b :: ids).take c := by
      intro x hx hmem
      rcases List.mem_cons.mp (List.take_subset c (b :: ids) hmem) with h1 | h2
      · rw [h1] at hx
        exact (List.nodup_cons.mp hnd).1 hx
      · exact hfresh x (List.mem_cons_of_mem b hx) h2
    have hlen2 : ((b :: ids).take c).length ≤ c := by
      rw [List.length_take]
      exact Nat.min_le_left c _
    obtain ⟨free2, hrest⟩ :=
      ih ((b :: ids).take c) free1 (List.nodup_cons.mp hnd).2 hfresh2 hlen2
    refine ⟨free2, ?_⟩
    unfold acquireAll at hrest ⊢
    rw [List.foldlM_cons, hstep, Option.map_some']
    simp only [Option.bind_eq_bind, Option.some_bind]
    rw [hrest, take_append_take]
    rw [show bs.reverse ++ b :: ids = (b :: bs).reverse ++ ids by simp]

/-- Claim C3.  With capacity C at least 1, acquiring C+1 distinct bunch ids in
strict order from a fresh cache evicts exactly the first-acquired (least
recently used) id b1: the final table holds precisely the later C ids, the
evictee is chosen by access order alone (the final recency list is the
access order reversed, independent of any size or dirtiness data), and after
every one of the C+1 getBunch calls the resident count is at most C. -/
theorem c3_lru_evicts_least_recently_used (C : Nat) (hC : 1 ≤ C) (b1 : Int)
    (rest : List Int) (hnd : (b1 :: rest).Nodup)
    (hlen : (b1 :: rest).length = C + 1) :
    ∃ s2 free2, acquireAll (emptyCache (C : Int)) (b1 :: rest) = some s2 ∧
      s2 = mkAcquired C rest.reverse free2 ∧
      tableGet s2.table b1 = none ∧
      (∀ b ∈ rest, tableGet s2.table b = some (emptyBunch b)) ∧
      s2.table.length = C ∧
      (∀ k, ∃ sp, acquireAll (emptyCache (C : Int)) ((b1 :: rest).take k) = some sp ∧
        sp.table.length ≤ C) := by
  have hrlen : rest.length = C := by
    simp only [List.length_cons] at hlen
    omega
  have hstart : emptyCache (C : Int) = mkAcquired C [] [] := rfl
  obtain ⟨free2, hrun⟩ := acquireAll_mkAcquired C hC (b1 :: rest) [] []
    hnd (by intro x _ h; cases h) (by simp)
  have hids : (((b1 :: rest).reverse ++ []).take C) = rest.reverse := by
    rw [List.append_nil, List.reverse_cons]
    rw [List.take_append_eq_append_take]
    rw [List.take_of_length_le (by rw [List.length_reverse, hrlen])]
    rw [List.length_reverse, hrlen, Nat.sub_self]
    simp
  rw [hids] at hrun
  refine ⟨mkAcquired C rest.reverse free2, free2, by rw [hstart]; exact hrun, rfl,
    ?_, ?_, ?_, ?_⟩
  · -- the first id was evicted
    have hb1 : b1 ∉ rest.reverse.reverse := by
      rw [List.reverse_reverse]
      exact (List.nodup_cons.mp hnd).1
    exact tableGet_emptyBunches_of_not_mem _ _ hb1
  · -- every later id is resident
    intro b hb
    apply tableGet_emptyBunches_of_mem
    rw [List.reverse_reverse]
    exact hb
  · -- the resident count is exactly C
    simp [mkAcquired, hrlen]
  · -- at every intermediate point the resident count is at most C
    intro k
    obtain ⟨freek, hk⟩ := acquireAll_mkAcquired C hC ((b1 :: rest).take k) [] []
      (hnd.sublist (List.take_sublist k (b1 :: rest)))
      (by intro x _ h; cases h) (by simp)
    refine ⟨_, by rw [hstart]; exact hk, ?_⟩
    simp only [mkAcquired, List.length_map, List.length_reverse, List.length_take,
      List.append_nil]
    exact le_trans (Nat.min_le_left _ _) le_rfl

theorem c3_lru_evicts_least_recently_used_witness :
    1 ≤ 1 ∧ ((0 : Int) :: [1]).Nodup ∧ ((0 : Int) :: [1]).length = 1 + 1 ∧
    (∃ s2 free2, acquireAll (emptyCache ((1 : Nat) : Int)) ((0 : Int) :: [1]) = some s2 ∧
      s2 = mkAcquired 1 ([1] : List Int).reverse free2 ∧
      tableGet s2.table 0 = none ∧
      (∀ b ∈ ([1] : List Int), tableGet s2.table b = some (emptyBunch b)) ∧
      s2.table.length = 1 ∧
      (∀ k, ∃ sp, acquireAll (emptyCache ((1 : Nat) : Int)) (((0 : Int) :: [1]).take k) =
          some sp ∧ sp.table.length ≤ 1)) :=
  ⟨le_rfl, by decide, by decide,
    c3_lru_evicts_least_recently_used 1 le_rfl 0 [1] (by decide) (by decide)⟩

/-- Lookup after a put at the same key. -/
theorem storeGet_storePut_self (st : List (Int × DeltaCoords)) (k : Int) (dc : DeltaCoords) :
    storeGet (storePut st k dc) k = some dc := by
  unfold storeGet storePut
  rw [List.find?_cons_of_pos _ (by simp)]
  rfl

/-- Lookup after a put at a different key. -/
theorem storeGet_storePut_other (st : List (Int × DeltaCoords)) (k k2 : Int)
    (dc : DeltaCoords) (h : k ≠ k2) :
    storeGet (storePut st k dc) k2 = storeGet st k2 := by
  unfold storeGet storePut
  rw [List.find?_cons_of_neg _ (by simp [h])]

/-- With duplicate-free keys, two table entries with the same key coincide. -/
theorem mem_unique_of_keys_nodup {t : List (Int × CoordsBunch)}
    (hnd : (t.map Prod.fst).Nodup) {p q : Int × CoordsBunch}
    (hp : p ∈ t) (hq : q ∈ t) (hk : p.1 = q.1) : p = q := by
  induction t with
  | nil => cases hp
  | cons a t ih =>
    rw [List.map_cons, List.nodup_cons] at hnd
    rcases List.mem_cons.mp hp with rfl | hp2
    · rcases List.mem_cons.mp hq with rfl | hq2
      · rfl
      · exfalso
        apply hnd.1
        rw [hk]
        exact List.mem_map_of_mem Prod.fst hq2
    · rcases List.mem_cons.mp hq with rfl | hq2
      · exfalso
        apply hnd.1
        rw [← hk]
        exact List.mem_map_of_mem Prod.fst hp2
      · exact ih hnd.2 hp2 hq2

/-- A successful table lookup exhibits a table entry. -/
theorem tableGet_mem {t : List (Int × CoordsBunch)} {bid : Int} {b : CoordsBunch}
    (h : tableGet t bid = some b) : (bid, b) ∈ t := by
  unfold tableGet at h
  obtain ⟨q, hq1, hq2⟩ := Option.map_eq_some'.mp h
  have hk : q.1 = bid := by
    have hpred := List.find?_some hq1
    simp only [decide_eq_true_eq] at hpred
    exact hpred
  have hmem := List.mem_of_find?_eq_some hq1
  obtain ⟨qa, qb⟩ := q
  simp only at hk hq2
  rw [← hk, ← hq2]
  exact hmem

/-- After erasing the entry of key bid from a duplicate-free table, no entry
with that key remains. -/
theorem not_key_mem_tableErase (t : List (Int × CoordsBunch)) (bid : Int)
    (hnd : (t.map Prod.fst).Nodup) : ∀ q ∈ tableErase t bid, q.1 ≠ bid := by
  induction t with
  | nil => intro q hq; cases hq
  | cons a t ih =>
    rw [List.map_cons, List.nodup_cons] at hnd
    intro q hq
    by_cases ha : a.1 = bid
    · unfold tableErase at hq
      rw [List.eraseP_cons_of_pos (by simp [ha])] at hq
      intro hqbid
      apply hnd.1
      rw [ha, ← hqbid]
      exact List.mem_map_of_mem Prod.fst hq
    · unfold tableErase at hq
      rw [List.eraseP_cons_of_neg (by simp [ha])] at hq
      rcases List.mem_cons.mp hq with rfl | h2
      · exact ha
      · exact ih hnd.2 q h2

/-- The table after an eviction is the table with the entry erased, whatever
the dirtiness. -/
theorem evictState_table (s : CacheState) (bid : Int) (bunch : CoordsBunch) :
    (evictState s bid bunch).table = tableErase s.table bid := by
  unfold evictState putCoordsPacked
  by_cases h : bunch.needsWrite = true <;> by_cases h2 : bunch.coords = [] <;>
    simp [h, h2]

/-- A clean eviction issues no store write. -/
theorem evictState_writeLog_clean (s : CacheState) (bid : Int) (bunch : CoordsBunch)
    (h : bunch.needsWrite = false) : (evictState s bid bunch).writeLog = s.writeLog := by
  unfold evictState
  simp [h]

/-- A clean eviction leaves the store unchanged. -/
theorem evictState_store_clean (s : CacheState) (bid : Int) (bunch : CoordsBunch)
    (h : bunch.needsWrite = false) : (evictState s bid bunch).store = s.store := by
  unfold evictState
  simp [h]

/-- A dirty eviction of non-empty content issues exactly the one store write
of the packed content. -/
theorem evictState_writeLog_dirty (s : CacheState) (bid : Int) (bunch : CoordsBunch)
    (h : bunch.needsWrite = true) (h2 : bunch.coords ≠ []) :
    (evictState s bid bunch).writeLog = s.writeLog ++ [(bid, packNodes bunch.coords)] := by
  unfold evictState putCoordsPacked
  simp [h, h2]

/-- A dirty eviction of non-empty content puts the packed content under the
bunch key. -/
theorem evictState_store_dirty (s : CacheState) (bid : Int) (bunch : CoordsBunch)
    (h : bunch.needsWrite = true) (h2 : bunch.coords ≠ []) :
    (evictState s bid bunch).store = storePut s.store bid (packNodes bunch.coords) := by
  unfold evictState putCoordsPacked
  simp [h, h2]

/-- What the eviction loop writes: every issued write carries the packed
content of a then-resident dirty bunch, every dirty bunch that leaves the
table has its content persisted in the final store, keys outside the issued
writes keep their store content, and the final table is a sublist of the
initial one. -/
theorem checkCapacityFuel_writes (f : Nat) :
    ∀ s s2 : CacheState, checkCapacityFuel f s = some s2 →
      (s.table.map Prod.fst).Nodup →
      (∀ p ∈ s.table, p.2.needsWrite = true → p.2.coords ≠ []) →
      ∃ evs, s2.writeLog = s.writeLog ++ evs ∧
        (∀ e ∈ evs, ∃ b2, (e.1, b2) ∈ s.table ∧ b2.needsWrite = true ∧
          e.2 = packNodes b2.coords) ∧
        (∀ p ∈ s.table, p ∈ s2.table ∨ (p.2.needsWrite = true →
          storeGet s2.store p.1 = some (packNodes p.2.coords))) ∧
        (∀ k, (∀ e ∈ evs, e.1 ≠ k) → storeGet s2.store k = storeGet s.store k) ∧
        s2.table.Sublist s.table := by
  induction f with
  | zero =>
    intro s s2 h hnd hne
    have hs : s2 = s := by
      by_cases hgt : (s.table.length : Int) > s.capacity
      · rw [checkCapacityFuel, if_pos hgt] at h
        cases h
      · rw [checkCapacityFuel, if_neg hgt] at h
        exact (Option.some.inj h).symm
    subst hs
    exact ⟨[], by simp, by simp, fun p hp => Or.inl hp, fun k _ => rfl,
      List.Sublist.refl _⟩
  | succ f ih =>
    intro s s2 h hnd hne
    by_cases hgt : (s.table.length : Int) > s.capacity
    · rw [checkCapacityFuel, if_pos hgt] at h
      obtain ⟨s3, hev, hrec⟩ := Option.bind_eq_some.mp h
      obtain ⟨bid, hbid, hmap⟩ := Option.bind_eq_some.mp hev
      obtain ⟨bunch, hbunch, hs3⟩ := Option.map_eq_some'.mp hmap
      subst hs3
      have hentry : (bid, bunch) ∈ s.table := tableGet_mem hbunch
      have h3table : (evictState s bid bunch).table = tableErase s.table bid :=
        evictState_table s bid bunch
      have hsub : (evictState s bid bunch).table.Sublist s.table := by
        rw [h3table]
        exact List.eraseP_sublist s.table
      have h3keys : ((evictState s bid bunch).table.map Prod.fst).Nodup :=
        hnd.sublist (hsub.map Prod.fst)
      have h3ne : ∀ p ∈ (evictState s bid bunch).table,
          p.2.needsWrite = true → p.2.coords ≠ [] :=
        fun p hp => hne p (hsub.subset hp)
      obtain ⟨evs3, hw3, horig3, hpers3, hpres3, hsub3⟩ := ih _ s2 hrec h3keys h3ne
      have hbidout : ∀ q ∈ (evictState s bid bunch).table, q.1 ≠ bid := by
        rw [h3table]
        exact not_key_mem_tableErase s.table bid hnd
      have hevs3bid : ∀ e ∈ evs3, e.1 ≠ bid := by
        intro e he
        obtain ⟨b3, hb3, _, _⟩ := horig3 e he
        exact hbidout (e.1, b3) hb3
      by_cases hdw : bunch.needsWrite = true
      · have hcne : bunch.coords ≠ [] := hne (bid, bunch) hentry hdw
        have h3w := evictState_writeLog_dirty s bid bunch hdw hcne
        have h3s := evictState_store_dirty s bid bunch hdw hcne
        refine ⟨(bid, packNodes bunch.coords) :: evs3, ?_, ?_, ?_, ?_,
          hsub3.trans hsub⟩
        · rw [hw3, h3w, List.append_assoc]
          rfl
        · intro e he
          rcases List.mem_cons.mp he with rfl | h2
          · exact ⟨bunch, hentry, hdw, rfl⟩
          · obtain ⟨b2, hb2mem, hb2d, hb2e⟩ := horig3 e h2
            exact ⟨b2, hsub.subset hb2mem, hb2d, hb2e⟩
        · intro p hp
          by_cases hpk : p.1 = bid
          · have hpeq : p = (bid, bunch) :=
              mem_unique_of_keys_nodup hnd hp hentry (by rw [hpk])
            right
            intro _
            have hstep : storeGet s2.store bid = storeGet (evictState s bid bunch).store bid :=
              hpres3 bid hevs3bid
            rw [hpeq]
            simp only
            rw [hstep, h3s, storeGet_storePut_self]
          · have hps3 : p ∈ (evictState s bid bunch).table := by
              rw [h3table]
              unfold tableErase
              rw [List.mem_eraseP_of_neg (by simp [hpk])]
              exact hp
            rcases hpers3 p hps3 with h1 | h2
            · exact Or.inl h1
            · exact Or.inr h2
        · intro k hk
          have hkbid : bid ≠ k := hk (bid, packNodes bunch.coords) (List.mem_cons_self _ _)
          rw [hpres3 k (fun e he => hk e (List.mem_cons_of_mem _ he)), h3s,
            storeGet_storePut_other _ _ _ _ hkbid]
      · have hdwf : bunch.needsWrite = false := by
          revert hdw
          cases bunch.needsWrite <;> simp
        have h3w := evictState_writeLog_clean s bid bunch hdwf
        have h3s := evictState_store_clean s bid bunch hdwf
        refine ⟨evs3, by rw [hw3, h3w], ?_, ?_, ?_, hsub3.trans hsub⟩
        · intro e he
          obtain ⟨b2, hb2mem, hb2d, hb2e⟩ := horig3 e he
          exact ⟨b2, hsub.subset hb2mem, hb2d, hb2e⟩
        · intro p hp
          by_cases hpk : p.1 = bid
          · have hpeq : p = (bid, bunch) :=
              mem_unique_of_keys_nodup hnd hp hentry (by rw [hpk])
            right
            intro hd
            rw [hpeq] at hd
            simp only at hd
            rw [hd] at hdwf
            cases hdwf
          · have hps3 : p ∈ (evictState s bid bunch).table := by
              rw [h3table]
              unfold tableErase
              rw [List.mem_eraseP_of_neg (by simp [hpk])]
              exact hp
            rcases hpers3 p hps3 with h1 | h2
            · exact Or.inl h1
            · exact Or.inr h2
        · intro k hk
          rw [hpres3 k hk, h3s]
    · rw [checkCapacityFuel, if_neg hgt] at h
      have hs : s2 = s := (Option.some.inj h).symm
      subst hs
      exact ⟨[], by simp, by simp, fun p hp => Or.inl hp, fun k _ => rfl,
        List.Sublist.refl _⟩

/-- Folding the Close flush over entries whose keys avoid k leaves the store
content at k unchanged. -/
theorem closeFold_storeGet_untouched (l : List (Int × CoordsBunch)) (acc : CacheState)
    (k : Int) (hk : ∀ p ∈ l, p.1 ≠ k) :
    storeGet (l.foldl closeStep acc).store k = storeGet acc.store k := by
  induction l generalizing acc with
  | nil => rfl
  | cons q l ih =>
    rw [List.foldl_cons, ih _ (fun p hp => hk p (List.mem_cons_of_mem q hp))]
    unfold closeStep putCoordsPacked
    by_cases hq : q.2.needsWrite = true <;> by_cases hq2 : q.2.coords = [] <;>
      simp [hq, hq2, storeGet_storePut_other _ _ _ _ (hk q (List.mem_cons_self q l))]

/-- Folding the Close flush appends exactly the dirty writes to the log. -/
theorem closeFold_writeLog (l : List (Int × CoordsBunch)) (acc : CacheState)
    (hne : ∀ p ∈ l, p.2.needsWrite = true → p.2.coords ≠ []) :
    (l.foldl closeStep acc).writeLog = acc.writeLog ++ dirtyWrites l := by
  induction l generalizing acc with
  | nil => simp [dirtyWrites]
  | cons q l ih =>
    rw [List.foldl_cons, ih _ (fun p hp => hne p (List.mem_cons_of_mem q hp))]
    by_cases hq : q.2.needsWrite = true
    · have hq2 : q.2.coords ≠ [] := hne q (List.mem_cons_self q l) hq
      unfold closeStep putCoordsPacked dirtyWrites
      rw [List.filter_cons_of_pos (by simp [hq])]
      simp [hq, hq2, dirtyWrites]
    · unfold closeStep dirtyWrites
      rw [List.filter_cons_of_neg (by simp [hq])]
      simp [hq, dirtyWrites]

/-- After folding the Close flush over a duplicate-free table, the store holds
the packed content of every dirty entry. -/
theorem closeFold_storeGet_dirty (l : List (Int × CoordsBunch)) (acc : CacheState)
    (hnd : (l.map Prod.fst).Nodup)
    (hne : ∀ p ∈ l, p.2.needsWrite = true → p.2.coords ≠ []) :
    ∀ p ∈ l, p.2.needsWrite = true →
      storeGet (l.foldl closeStep acc).store p.1 = some (packNodes p.2.coords) := by
  induction l generalizing acc with
  | nil => intro p hp; cases hp
  | cons q l ih =>
    rw [List.map_cons, List.nodup_cons] at hnd
    intro p hp hpd
    rcases List.mem_cons.mp hp with rfl | hp2
    · rw [List.foldl_cons]
      have hq2 : p.2.coords ≠ [] := hne p (List.mem_cons_self p l) hpd
      have hkeys : ∀ r ∈ l, r.1 ≠ p.1 := by
        intro r hr hrk
        apply hnd.1
        rw [← hrk]
        exact List.mem_map_of_mem Prod.fst hr
      rw [closeFold_storeGet_untouched l _ p.1 hkeys]
      unfold closeStep putCoordsPacked
      simp [hpd, hq2, storeGet_storePut_self]
    · rw [List.foldl_cons]
      exact ih _ hnd.2 (fun r hr => hne r (List.mem_cons_of_mem q hr)) p hp2 hpd

/-- Claim C4.  Every resident dirty bunch is written back when evicted for
capacity or on Close, and a clean bunch is never written: Close appends
exactly one write per dirty entry and leaves the store holding each dirty
content, and the eviction loop only writes then-resident dirty bunches and
persists every dirty bunch it drops.  The hypotheses are the reachable-state
facts that map keys are unique and that dirty bunches are non-empty (a bunch
only becomes dirty when PutCoords appends a non-empty run; an empty dirty
bunch would in fact be skipped by putCoordsPacked). -/
theorem c4_dirty_flushed_clean_never_written (s : CacheState)
    (hnd : (s.table.map Prod.fst).Nodup)
    (hne : ∀ p ∈ s.table, p.2.needsWrite = true → p.2.coords ≠ []) :
    C4Conc s := by
  refine ⟨⟨closeFold_writeLog s.table s hne,
    closeFold_storeGet_dirty s.table s hnd hne⟩, ?_⟩
  intro s2 h2
  obtain ⟨evs, hw, horig, hpers, _, _⟩ :=
    checkCapacityFuel_writes s.table.length s s2 h2 hnd hne
  exact ⟨evs, hw, horig, hpers⟩

theorem c4_dirty_flushed_clean_never_written_witness :
    (let sW : CacheState :=
      { table := [(5, { id := 5, coords := [{ id := 321, long := 7, lat := 9 }],
                        needsWrite := true }),
                  (6, { id := 6, coords := [{ id := 400, long := 1, lat := 2 }],
                        needsWrite := false })],
        lruList := [6, 5], store := [], freeNodes := [], capacity := 1,
        writeLog := [] }
    (sW.table.map Prod.fst).Nodup ∧
      (∀ p ∈ sW.table, p.2.needsWrite = true → p.2.coords ≠ []) ∧ C4Conc sW) :=
  ⟨by decide, by decide,
    c4_dirty_flushed_clean_never_written _ (by decide) (by decide)⟩

/-- Claim C5, counterexample.  From a state whose single resident bunch
satisfies the invariant (sorted, one record per id), PutCoords of a record
whose identifier is already present appends and re-sorts, leaving two records
with identifier 1 in bunch 0: the sorted/duplicate-free invariant is not
preserved by PutCoords. -/
theorem c5_put_duplicate_id_breaks_invariant :
    TableInv { table := [(0, { id := 0, coords := [{ id := 1, long := 1, lat := 1 }],
                               needsWrite := false })],
               lruList := [0], store := [], freeNodes := [], capacity := 8,
               writeLog := [] } ∧
    putCoords { table := [(0, { id := 0, coords := [{ id := 1, long := 1, lat := 1 }],
                                needsWrite := false })],
                lruList := [0], store := [], freeNodes := [], capacity := 8,
                writeLog := [] }
        [{ id := 1, long := 9, lat := 9 }] =
      some { table := [(0, { id := 0,
                             coords := [{ id := 1, long := 1, lat := 1 },
                                        { id := 1, long := 9, lat := 9 }],
                             needsWrite := true })],
             lruList := [0], store := [], freeNodes := [], capacity := 8,
             writeLog := [] } ∧
    ¬ TableInv { table := [(0, { id := 0,
                                 coords := [{ id := 1, long := 1, lat := 1 },
                                            { id := 1, long := 9, lat := 9 }],
                                 needsWrite := true })],
                 lruList := [0], store := [], freeNodes := [], capacity := 8,
                 writeLog := [] } := by
  decide

/-- On a sorted duplicate-free sequence, the lower-bound search followed by
the equality check of GetCoord finds exactly the record the linear search
find? would find. -/
theorem searchNode_eq_find (l : List Node) (id : Int) (hs : CoordsInv l) :
    searchNode l id =
      match l.find? (fun nd => nd.id = id) with
      | some nd => (nd, true)
      | none => (emptyNode, false) := by
  induction l with
  | nil => rfl
  | cons a l ih =>
    unfold CoordsInv at hs
    rw [List.pairwise_cons] at hs
    by_cases hpa : id ≤ a.id
    · have hfi : (a :: l).findIdx (fun nd => id ≤ nd.id) = 0 := by
        rw [List.findIdx_cons]
        simp [hpa]
      unfold searchNode
      rw [hfi]
      by_cases haid : a.id = id
      · rw [List.find?_cons_of_pos _ (by simp [haid])]
        simp [haid]
      · rw [List.find?_cons_of_neg _ (by simp [haid])]
        have hnone : l.find? (fun nd => nd.id = id) = none := by
          rw [List.find?_eq_none]
          intro nd hnd
          have h1 : a.id < nd.id := hs.1 nd hnd
          have h2 : id < a.id := lt_of_le_of_ne hpa (fun he => haid he.symm)
          simp
          omega
        rw [hnone]
        simp [haid]
    · have hfi : (a :: l).findIdx (fun nd => id ≤ nd.id) =
          l.findIdx (fun nd => id ≤ nd.id) + 1 := by
        rw [List.findIdx_cons]
        simp [hpa]
      have haid : ¬ a.id = id := by
        intro he
        exact hpa (le_of_eq he.symm)
      unfold searchNode
      rw [hfi, List.find?_cons_of_neg _ (by simp [haid])]
      exact ih hs.2

/-- The resident lookup only depends on the table. -/
theorem residentLookup_congr (s s2 : CacheState) (h : s2.table = s.table) (id : Int) :
    residentLookup s2 id = residentLookup s id := by
  unfold residentLookup
  rw [h]

/-- GetCoord on an identifier whose bunch is resident, within capacity: it
returns the record found by the pure resident lookup, found = true, and only
reorders the recency list. -/
theorem getCoord_resident_found (s : CacheState) (id : Int) (b : CoordsBunch) (nd : Node)
    (hres : tableGet s.table (getBunchId id) = some b) (hs : CoordsInv b.coords)
    (hsize : (s.table.length : Int) ≤ s.capacity)
    (hfind : residentLookup s id = some nd) :
    getCoord s id =
      some (nd, true, { s with lruList := moveToFront s.lruList (getBunchId id) }) := by
  have hfind2 : b.coords.find? (fun x => x.id = id) = some nd := by
    unfold residentLookup at hfind
    rw [hres] at hfind
    exact hfind
  unfold getCoord
  rw [getBunch_hit s (getBunchId id) b hres]
  rw [checkCapacity_of_le
    { s with lruList := moveToFront s.lruList (getBunchId id) } hsize]
  simp only [Option.map_some']
  rw [searchNode_eq_find b.coords id hs, hfind2]

/-- GetCoord on an identifier absent from its resident bunch, within
capacity: found = false with the zero record, and only the recency list is
reordered. -/
theorem getCoord_resident_notfound (s : CacheState) (id : Int) (b : CoordsBunch)
    (hres : tableGet s.table (getBunchId id) = some b) (hs : CoordsInv b.coords)
    (hsize : (s.table.length : Int) ≤ s.capacity)
    (hfind : residentLookup s id = none) :
    getCoord s id =
      some (emptyNode, false, { s with lruList := moveToFront s.lruList (getBunchId id) }) := by
  have hfind2 : b.coords.find? (fun x => x.id = id) = none := by
    unfold residentLookup at hfind
    rw [hres] at hfind
    exact hfind
  unfold getCoord
  rw [getBunch_hit s (getBunchId id) b hres]
  rw [checkCapacity_of_le
    { s with lruList := moveToFront s.lruList (getBunchId id) } hsize]
  simp only [Option.map_some']
  rw [searchNode_eq_find b.coords id hs, hfind2]

/-- Equation lemma: the FillWay loop on a resolved head reference. -/
theorem fillLoop_cons_found (s : CacheState) (r : Int) (rest : List Int) (nd : Node)
    (s1 : CacheState) (h : getCoord s r = some (nd, true, s1)) :
    fillLoop s (r :: rest) =
      (fillLoop s1 rest).map (fun q2 => (q2.1, nd :: q2.2.1, q2.2.2)) := by
  conv_lhs => unfold fillLoop
  rw [h]
  rfl

/-- Equation lemma: the FillWay loop on an unresolved head reference. -/
theorem fillLoop_cons_notfound (s : CacheState) (r : Int) (rest : List Int) (nd : Node)
    (s1 : CacheState) (h : getCoord s r = some (nd, false, s1)) :
    fillLoop s (r :: rest) =
      some (false, nd :: List.replicate rest.length emptyNode, s1) := by
  conv_lhs => unfold fillLoop
  rw [h]
  rfl

/-- The resolution loop of FillWay when every bunch touched is resident and
every reference resolves: it returns the looked-up records in reference
order and only reorders the recency list. -/
theorem fillLoop_all_found (refs : List Int) :
    ∀ (s : CacheState) (recs : List Node), TableInv s →
      (s.table.length : Int) ≤ s.capacity →
      (∀ r ∈ refs, (tableGet s.table (getBunchId r)).isSome = true) →
      refs.mapM (residentLookup s) = some recs →
      ∃ s2, fillLoop s refs = some (true, recs, s2) ∧
        s2.table = s.table ∧ s2.capacity = s.capacity := by
  induction refs with
  | nil =>
    intro s recs _ _ _ hmap
    have : recs = [] := by
      simp only [List.mapM_nil] at hmap
      exact (Option.some.inj hmap).symm
    subst this
    exact ⟨s, rfl, rfl, rfl⟩
  | cons r rest ih =>
    intro s recs hts hsize hres hmap
    rw [List.mapM_cons] at hmap
    rcases hlook : residentLookup s r with _ | nd
    · rw [hlook] at hmap
      simp at hmap
    rw [hlook] at hmap
    rcases hmaprest : rest.mapM (residentLookup s) with _ | recs2
    · rw [hmaprest] at hmap
      simp at hmap
    rw [hmaprest] at hmap
    simp only [Option.some_bind, Option.pure_def] at hmap
    have hrecs : recs = nd :: recs2 := (Option.some.inj hmap).symm
    obtain ⟨b, hb⟩ := Option.isSome_iff_exists.mp (hres r (List.mem_cons_self r rest))
    have hcoords : CoordsInv b.coords := hts (getBunchId r, b) (tableGet_mem hb)
    have hget := getCoord_resident_found s r b nd hb hcoords hsize hlook
    rw [fillLoop_cons_found s r rest nd _ hget]
    have hfun : residentLookup { s with lruList := moveToFront s.lruList (getBunchId r) } =
        residentLookup s := by
      funext x
      exact residentLookup_congr s
        { s with lruList := moveToFront s.lruList (getBunchId r) } rfl x
    obtain ⟨s2, hfl, hs2t, hs2c⟩ := ih { s with lruList := moveToFront s.lruList (getBunchId r) }
      recs2
      (by intro p hp; exact hts p hp)
      hsize
      (by intro x hx; exact hres x (List.mem_cons_of_mem r hx))
      (by rw [hfun]; exact hmaprest)
    rw [hfl]
    refine ⟨s2, ?_, hs2t, hs2c⟩
    rw [hrecs]
    simp

/-- The resolution loop of FillWay fails with ok = false as soon as some
reference in the list does not resolve (all bunches resident). -/
theorem fillLoop_some_missing (refs : List Int) :
    ∀ s : CacheState, TableInv s → (s.table.length : Int) ≤ s.capacity →
      (∀ r ∈ refs, (tableGet s.table (getBunchId r)).isSome = true) →
      (∃ r ∈ refs, residentLookup s r = none) →
      ∃ nds s2, fillLoop s refs = some (false, nds, s2) := by
  induction refs with
  | nil =>
    intro s _ _ _ hmiss
    obtain ⟨r, hr, _⟩ := hmiss
    cases hr
  | cons r rest ih =>
    intro s hts hsize hres hmiss
    obtain ⟨b, hb⟩ := Option.isSome_iff_exists.mp (hres r (List.mem_cons_self r rest))
    have hcoords : CoordsInv b.coords := hts (getBunchId r, b) (tableGet_mem hb)
    rcases hlook : residentLookup s r with _ | nd
    · have hget := getCoord_resident_notfound s r b hb hcoords hsize hlook
      rw [fillLoop_cons_notfound s r rest emptyNode _ hget]
      exact ⟨_, _, rfl⟩
    · have hget := getCoord_resident_found s r b nd hb hcoords hsize hlook
      rw [fillLoop_cons_found s r rest nd _ hget]
      have hmiss2 : ∃ x ∈ rest, residentLookup
          { s with lruList := moveToFront s.lruList (getBunchId r) } x = none := by
        obtain ⟨x, hx, hxn⟩ := hmiss
        rcases List.mem_cons.mp hx with rfl | hx2
        · rw [hlook] at hxn
          cases hxn
        · refine ⟨x, hx2, ?_⟩
          rw [residentLookup_congr s
            { s with lruList := moveToFront s.lruList (getBunchId r) } rfl x]
          exact hxn
      obtain ⟨nds, s2, hfl⟩ := ih { s with lruList := moveToFront s.lruList (getBunchId r) }
        (by intro p hp; exact hts p hp) hsize
        (by intro x hx; exact hres x (List.mem_cons_of_mem r hx)) hmiss2
      rw [hfl]
      exact ⟨_, _, rfl⟩

/-- Equation lemma: FillWay on a non-nil way runs the resolution loop and
stores its nodes into the way. -/
theorem fillWay_some (s : CacheState) (w : Way) :
    fillWay s (some w) =
      (fillLoop s w.refs).map (fun q => (q.1, some { w with nodes := q.2.1 }, q.2.2)) := rfl

/-- Claim C6.  FillWay resolves the references in order through GetCoord:
with every touched bunch resident (and the cache within capacity, the
reachable situation for pure lookups), it returns ok = true with exactly the
record of Refs[i] at Nodes[i] when every reference resolves, and ok = false
as soon as one reference does not resolve. -/
theorem c6_fill_way_all_or_nothing (s : CacheState) (w : Way)
    (hts : TableInv s) (hsize : (s.table.length : Int) ≤ s.capacity)
    (hres : ∀ r ∈ w.refs, (tableGet s.table (getBunchId r)).isSome = true) :
    C6Conc s w := by
  constructor
  · intro recs hmap
    obtain ⟨s2, hfl, _, _⟩ := fillLoop_all_found w.refs s recs hts hsize hres hmap
    refine ⟨s2, ?_⟩
    rw [fillWay_some, hfl]
    rfl
  · intro hmiss
    obtain ⟨nds, s2, hfl⟩ := fillLoop_some_missing w.refs s hts hsize hres hmiss
    refine ⟨some { w with nodes := nds }, s2, ?_⟩
    rw [fillWay_some, hfl]
    rfl

/-- wrap64 is the identity on int64-range values. -/
theorem wrap64_id (x : Int) (h1 : -9223372036854775808 ≤ x)
    (h2 : x < 9223372036854775808) : wrap64 x = x := by
  unfold wrap64
  omega

/-- Adding a wrapped delta and wrapping again is wrapping the exact sum. -/
theorem wrap64_add_wrap64 (a c : Int) : wrap64 (a + wrap64 c) = wrap64 (a + c) := by
  unfold wrap64
  omega

/-- wrap32 is the identity on uint32-range values. -/
theorem wrap32_id (x : Int) (h1 : 0 ≤ x) (h2 : x < 4294967296) : wrap32 x = x := by
  unfold wrap32
  omega

/-- The decode loop inverts the encode loop up to the latitude/longitude
transposition, for well-formed records and matching accumulators (the decode
longitude accumulator continues the encode latitude chain and conversely). -/
theorem unpackLoop_packLoop (l : List Node) :
    ∀ J LN LT : Int, NodesWF l →
      -9223372036854775808 ≤ J → J < 9223372036854775808 →
      0 ≤ LN → LN < 4294967296 → 0 ≤ LT → LT < 4294967296 →
      unpackLoop J LT LN (packLoop J LN LT l).1 (packLoop J LN LT l).2.2
          (packLoop J LN LT l).2.1 =
        some (l.map swapNode) := by
  induction l with
  | nil =>
    intro J LN LT _ _ _ _ _ _ _
    rfl
  | cons nd rest ih =>
    intro J LN LT hwf hJ1 hJ2 hLN1 hLN2 hLT1 hLT2
    obtain ⟨hid1, hid2, hlong1, hlong2, hlat1, hlat2⟩ := hwf nd (List.mem_cons_self nd rest)
    have hwfr : NodesWF rest := fun x hx => hwf x (List.mem_cons_of_mem nd hx)
    have hida : wrap64 (J + wrap64 (nd.id - J)) = nd.id := by
      rw [wrap64_add_wrap64]
      have : J + (nd.id - J) = nd.id := by ring
      rw [this]
      exact wrap64_id nd.id hid1 hid2
    have hlata : wrap64 (LT + wrap64 (nd.lat - LT)) = nd.lat := by
      rw [wrap64_add_wrap64]
      have : LT + (nd.lat - LT) = nd.lat := by ring
      rw [this]
      exact wrap64_id nd.lat (by omega) (by omega)
    have hlona : wrap64 (LN + wrap64 (nd.long - LN)) = nd.long := by
      rw [wrap64_add_wrap64]
      have : LN + (nd.long - LN) = nd.long := by ring
      rw [this]
      exact wrap64_id nd.long (by omega) (by omega)
    simp only [packLoop, unpackLoop]
    rw [hida, hlata, hlona]
    rw [ih nd.id nd.long nd.lat hwfr hid1 hid2 hlong1 hlong2 hlat1 hlat2]
    simp only [Option.map_some', List.map_cons]
    rw [wrap32_id nd.lat hlat1 hlat2, wrap32_id nd.long hlong1 hlong2]
    rfl

/-- One decode of one encode of a well-formed sequence yields the sequence
with latitude and longitude transposed in every record. -/
theorem unpack_pack (l : List Node) (h : NodesWF l) :
    unpackNodes (packNodes l) = some (l.map swapNode) := by
  unfold unpackNodes packNodes
  exact unpackLoop_packLoop l 0 0 0 h (by omega) (by omega) (by omega) (by omega)
    (by omega) (by omega)

/-- Transposing latitude and longitude preserves the bunch invariant (which
only looks at identifiers). -/
theorem coordsInv_map_swap (l : List Node) (h : CoordsInv l) :
    CoordsInv (l.map swapNode) := by
  unfold CoordsInv at h ⊢
  rw [List.pairwise_map]
  exact h.imp (fun hab => hab)

/-- Transposing latitude and longitude preserves well-formedness. -/
theorem nodesWF_map_swap (l : List Node) (h : NodesWF l) :
    NodesWF (l.map swapNode) := by
  intro nd hnd
  obtain ⟨x, hx, hxe⟩ := List.mem_map.mp hnd
  obtain ⟨h1, h2, h3, h4, h5, h6⟩ := h x hx
  subst hxe
  exact ⟨h1, h2, h5, h6, h3, h4⟩

/-- The identifiers of the transposed sequence are those of the original. -/
theorem map_swap_ids (l : List Node) :
    (l.map swapNode).map Node.id = l.map Node.id := by
  induction l with
  | nil => rfl
  | cons nd rest ih =>
    simp only [List.map_cons, ih]
    rfl

/-- A sequence with the bunch invariant has duplicate-free identifiers. -/
theorem coordsInv_ids_nodup (l : List Node) (h : CoordsInv l) :
    (l.map Node.id).Nodup := by
  unfold CoordsInv at h
  exact List.pairwise_map.mpr (h.imp (fun hlt => ne_of_lt hlt))

/-- A sequence sorted by identifier with duplicate-free identifiers has the
bunch invariant. -/
theorem coordsInv_of_sorted_nodup (l : List Node) (hs : List.Pairwise nodeLe l)
    (hnd : (l.map Node.id).Nodup) : CoordsInv l := by
  unfold CoordsInv
  have h2 : l.Pairwise (fun a b => a.id ≠ b.id) := List.pairwise_map.mp hnd
  exact (hs.and h2).imp (fun hab => lt_of_le_of_ne hab.1 hab.2)

/-- sortNodes permutes its input. -/
theorem sortNodes_perm (l : List Node) : (sortNodes l).Perm l :=
  List.perm_insertionSort nodeLe l

/-- sortNodes sorts by identifier. -/
theorem sortNodes_sorted (l : List Node) : List.Pairwise nodeLe (sortNodes l) :=
  List.sorted_insertionSort nodeLe l

/-- Sorting the concatenation of an invariant-satisfying bunch content and an
invariant-satisfying run with disjoint identifiers yields invariant-
satisfying well-formed content. -/
theorem coordsOk_sort_append (l seg : List Node) (hl : CoordsOk l)
    (hseg : CoordsInv seg) (hsegwf : NodesWF seg)
    (hdisj : ∀ a ∈ l, ∀ b ∈ seg, a.id ≠ b.id) :
    CoordsOk (sortNodes (l ++ seg)) := by
  have hperm : (sortNodes (l ++ seg)).Perm (l ++ seg) := sortNodes_perm (l ++ seg)
  have hnd : ((l ++ seg).map Node.id).Nodup := by
    rw [List.map_append]
    apply List.Nodup.append (coordsInv_ids_nodup l hl.1) (coordsInv_ids_nodup seg hseg)
    intro i hi1 hi2
    obtain ⟨a, ha, hae⟩ := List.mem_map.mp hi1
    obtain ⟨b, hb, hbe⟩ := List.mem_map.mp hi2
    exact hdisj a ha b hb (by rw [hae, hbe])
  have hnd2 : ((sortNodes (l ++ seg)).map Node.id).Nodup :=
    ((hperm.map Node.id).nodup_iff).mpr hnd
  refine ⟨coordsInv_of_sorted_nodup _ (sortNodes_sorted (l ++ seg)) hnd2, ?_⟩
  intro nd hnd3
  have : nd ∈ l ++ seg := hperm.mem_iff.mp hnd3
  rcases List.mem_append.mp this with h1 | h2
  · exact hl.2 nd h1
  · exact hsegwf nd h2

/-- The store after one eviction: unchanged, or extended by the packed
content of the evicted bunch. -/
theorem evictState_store_cases (s : CacheState) (bid : Int) (bunch : CoordsBunch) :
    (evictState s bid bunch).store = s.store ∨
      (evictState s bid bunch).store = storePut s.store bid (packNodes bunch.coords) := by
  unfold evictState putCoordsPacked
  by_cases h : bunch.needsWrite = true <;> by_cases h2 : bunch.coords = [] <;>
    simp [h, h2]

/-- The eviction loop preserves the whole-cache invariant and the freshness
of any identifier not present anywhere. -/
theorem checkCapacityFuel_inv (f : Nat) :
    ∀ s s2 : CacheState, checkCapacityFuel f s = some s2 → TableOk s → StoreOk s →
      TableOk s2 ∧ StoreOk s2 ∧ (∀ i, FreshId s i → FreshId s2 i) := by
  induction f with
  | zero =>
    intro s s2 h ht hst
    have hs : s2 = s := by
      by_cases hgt : ((s.table.length : Int) > s.capacity)
      · rw [checkCapacityFuel, if_pos hgt] at h
        cases h
      · rw [checkCapacityFuel, if_neg hgt] at h
        exact (Option.some.inj h).symm
    subst hs
    exact ⟨ht, hst, fun _ hi => hi⟩
  | succ f ih =>
    intro s s2 h ht hst
    by_cases hgt : ((s.table.length : Int) > s.capacity)
    · rw [checkCapacityFuel, if_pos hgt] at h
      obtain ⟨s3, hev, hrec⟩ := Option.bind_eq_some.mp h
      obtain ⟨bid, hbid, hmap⟩ := Option.bind_eq_some.mp hev
      obtain ⟨bunch, hbunch, hs3⟩ := Option.map_eq_some'.mp hmap
      subst hs3
      have hentry := tableGet_mem hbunch
      have h3t : (evictState s bid bunch).table = tableErase s.table bid :=
        evictState_table s bid bunch
      have hsub : (evictState s bid bunch).table.Sublist s.table := by
        rw [h3t]
        exact List.eraseP_sublist s.table
      have ht3 : TableOk (evictState s bid bunch) := fun p hp => ht p (hsub.subset hp)
      have hstores := evictState_store_cases s bid bunch
      have hst3 : StoreOk (evictState s bid bunch) := by
        rcases hstores with he | he
        · intro p hp
          rw [he] at hp
          exact hst p hp
        · intro p hp
          rw [he] at hp
          simp only [storePut] at hp
          rcases List.mem_cons.mp hp with rfl | h2
          · exact ⟨bunch.coords, ht (bid, bunch) hentry, rfl⟩
          · exact hst p h2
      have hfr3 : ∀ i, FreshId s i → FreshId (evictState s bid bunch) i := by
        intro i hi
        constructor
        · intro p hp nd hnd
          exact hi.1 p (hsub.subset hp) nd hnd
        · intro p hp nds hundp nd hnd
          rcases hstores with he | he
          · rw [he] at hp
            exact hi.2 p hp nds hundp nd hnd
          · rw [he] at hp
            simp only [storePut] at hp
            rcases List.mem_cons.mp hp with rfl | h2
            · have hwf : NodesWF bunch.coords := (ht (bid, bunch) hentry).2
              have hup : unpackNodes (packNodes bunch.coords) = some nds := hundp
              rw [unpack_pack bunch.coords hwf] at hup
              have hnds : nds = bunch.coords.map swapNode := (Option.some.inj hup).symm
              subst hnds
              obtain ⟨x, hx, hxe⟩ := List.mem_map.mp hnd
              have hxid := hi.1 (bid, bunch) hentry x hx
              rw [← hxe]
              exact hxid
            · exact hi.2 p h2 nds hundp nd hnd
      obtain ⟨ht2, hst2, hfr2⟩ := ih _ s2 hrec ht3 hst3
      exact ⟨ht2, hst2, fun i hi => hfr2 i (hfr3 i hi)⟩
    · rw [checkCapacityFuel, if_neg hgt] at h
      have hs : s2 = s := (Option.some.inj h).symm
      subst hs
      exact ⟨ht, hst, fun _ hi => hi⟩

/-- A successful store lookup exhibits a store entry. -/
theorem storeGet_mem {st : List (Int × DeltaCoords)} {bid : Int} {dc : DeltaCoords}
    (h : storeGet st bid = some dc) : (bid, dc) ∈ st := by
  unfold storeGet at h
  obtain ⟨q, hq1, hq2⟩ := Option.map_eq_some'.mp h
  have hk : q.1 = bid := by
    have hpred := List.find?_some hq1
    simp only [decide_eq_true_eq] at hpred
    exact hpred
  have hmem := List.mem_of_find?_eq_some hq1
  obtain ⟨qa, qb⟩ := q
  simp only at hk hq2
  rw [← hk, ← hq2]
  exact hmem

/-- getBunch preserves the whole-cache invariant and freshness, and the bunch
it hands out satisfies the bunch invariant; moreover the content it hands
out cannot contain any identifier that is fresh for the pre-state. -/
theorem getBunch_inv (s : CacheState) (bid : Int) (b : CoordsBunch) (s2 : CacheState)
    (h : getBunch s bid = some (b, s2)) (ht : TableOk s) (hst : StoreOk s) :
    TableOk s2 ∧ StoreOk s2 ∧ (∀ i, FreshId s i → FreshId s2 i) ∧ CoordsOk b.coords ∧
      (∀ i, FreshId s i → ∀ nd ∈ b.coords, nd.id ≠ i) := by
  rcases hres : tableGet s.table bid with _ | bunch
  · rcases hload : getCoordsPacked s bid with _ | nodes
    · unfold getBunch at h
      rw [hres, hload] at h
      cases h
    · rw [getBunch_miss s bid nodes hres hload] at h
      obtain ⟨s1c, hcc, hpair⟩ := Option.map_eq_some'.mp h
      have hb : ({ id := bid, coords := nodes, needsWrite := false } : CoordsBunch) = b :=
        congrArg Prod.fst hpair
      have hs2 : s1c = s2 := congrArg Prod.snd hpair
      subst hs2
      subst hb
      have hnodes : CoordsOk nodes ∧ (∀ i, FreshId s i → ∀ nd ∈ nodes, nd.id ≠ i) := by
        unfold getCoordsPacked at hload
        rcases hsg : storeGet s.store bid with _ | dc
        · rw [hsg] at hload
          have hn : nodes = [] := (Option.some.inj hload).symm
          subst hn
          exact ⟨⟨List.Pairwise.nil, fun nd hnd => absurd hnd (List.not_mem_nil nd)⟩,
            fun i _ nd hnd => absurd hnd (List.not_mem_nil nd)⟩
        · rw [hsg] at hload
          have hentry : (bid, dc) ∈ s.store := storeGet_mem hsg
          obtain ⟨l, hlok, hldc⟩ := hst (bid, dc) hentry
          simp only at hldc
          subst hldc
          have hload2 : unpackNodes (packNodes l) = some nodes := hload
          rw [unpack_pack l hlok.2] at hload2
          have hn : nodes = l.map swapNode := (Option.some.inj hload2).symm
          subst hn
          refine ⟨⟨coordsInv_map_swap l hlok.1, nodesWF_map_swap l hlok.2⟩, ?_⟩
          intro i hi nd hnd
          exact hi.2 (bid, packNodes l) hentry (l.map swapNode)
            (unpack_pack l hlok.2) nd hnd
      have ht1 : TableOk { s with
          lruList := bid :: s.lruList
          freeNodes := s.freeNodes.dropLast
          table := s.table ++ [(bid, { id := bid, coords := nodes, needsWrite := false })] } := by
        intro p hp
        rcases List.mem_append.mp hp with h1 | h2
        · exact ht p h1
        · rw [List.mem_singleton.mp h2]
          exact hnodes.1
      have hst1 : StoreOk { s with
          lruList := bid :: s.lruList
          freeNodes := s.freeNodes.dropLast
          table := s.table ++ [(bid, { id := bid, coords := nodes, needsWrite := false })] } :=
        fun p hp => hst p hp
      have hfr1 : ∀ i, FreshId s i → FreshId { s with
          lruList := bid :: s.lruList
          freeNodes := s.freeNodes.dropLast
          table := s.table ++ [(bid, { id := bid, coords := nodes, needsWrite := false })] } i := by
        intro i hi
        constructor
        · intro p hp nd hnd
          rcases List.mem_append.mp hp with h1 | h2
          · exact hi.1 p h1 nd hnd
          · rw [List.mem_singleton.mp h2] at hnd
            exact hnodes.2 i hi nd hnd
        · intro p hp nds hundp nd hnd
          exact hi.2 p hp nds hundp nd hnd
      obtain ⟨ht2, hst2, hfr2⟩ := checkCapacityFuel_inv _ _ _ hcc ht1 hst1
      exact ⟨ht2, hst2, fun i hi => hfr2 i (hfr1 i hi), hnodes.1, hnodes.2⟩
  · rw [getBunch_hit s bid bunch hres] at h
    obtain ⟨s1c, hcc, hpair⟩ := Option.map_eq_some'.mp h
    have hb : bunch = b := congrArg Prod.fst hpair
    have hs2 : s1c = s2 := congrArg Prod.snd hpair
    subst hs2
    subst hb
    have hentry := tableGet_mem hres
    obtain ⟨ht2, hst2, hfr2⟩ := checkCapacityFuel_inv _ _ _ hcc
      (fun p hp => ht p hp) (fun p hp => hst p hp)
    exact ⟨ht2, hst2, fun i hi => hfr2 i hi, ht (bid, bunch) hentry,
      fun i hi nd hnd => hi.1 (bid, bunch) hentry nd hnd⟩

/-- An entry of the written-through table is the written bunch or an old
entry. -/
theorem mem_tableSet {t : List (Int × CoordsBunch)} {cur : Int} {b2 : CoordsBunch}
    {p : Int × CoordsBunch} (hp : p ∈ tableSet t cur b2) : p = (cur, b2) ∨ p ∈ t := by
  unfold tableSet at hp
  obtain ⟨q, hq, hqe⟩ := List.mem_map.mp hp
  by_cases hqc : q.1 = cur
  · rw [if_pos hqc] at hqe
    exact Or.inl hqe.symm
  · rw [if_neg hqc] at hqe
    rw [← hqe]
    exact Or.inr hq

/-- Flushing one run of PutCoords preserves the whole-cache invariant, given
a sorted well-formed run of identifiers that are fresh for the cache; it
also keeps fresh every identifier outside the run. -/
theorem flushRun_inv (s : CacheState) (cur : Int) (seg : List Node) (s2 : CacheState)
    (h : flushRun s cur seg = some s2) (ht : TableOk s) (hst : StoreOk s)
    (hseg : CoordsInv seg) (hsegwf : NodesWF seg)
    (hfresh : ∀ nd ∈ seg, FreshId s nd.id) :
    TableOk s2 ∧ StoreOk s2 ∧
      (∀ i, FreshId s i → (∀ nd ∈ seg, nd.id ≠ i) → FreshId s2 i) := by
  unfold flushRun at h
  obtain ⟨r, hgb, hs2⟩ := Option.map_eq_some'.mp h
  obtain ⟨b, s1⟩ := r
  simp only at hs2
  obtain ⟨ht1, hst1, hfr1, hbok, hbfresh⟩ := getBunch_inv s cur b s1 hgb ht hst
  subst hs2
  have hdisj : ∀ a ∈ b.coords, ∀ nd ∈ seg, a.id ≠ nd.id := by
    intro a ha nd hnd hae
    exact hbfresh nd.id (hfresh nd hnd) a ha hae
  have hok2 : CoordsOk (sortNodes (b.coords ++ seg)) :=
    coordsOk_sort_append b.coords seg hbok hseg hsegwf hdisj
  refine ⟨?_, fun p hp => hst1 p hp, ?_⟩
  · intro p hp
    rcases mem_tableSet hp with rfl | h2
    · exact hok2
    · exact ht1 p h2
  · intro i hi hnseg
    have hi1 := hfr1 i hi
    constructor
    · intro p hp nd hnd
      rcases mem_tableSet hp with rfl | h2
      · have hmem : nd ∈ b.coords ++ seg := (sortNodes_perm _).mem_iff.mp hnd
        rcases List.mem_append.mp hmem with ha | hb2
        · exact hbfresh i hi nd ha
        · exact hnseg nd hb2
      · exact hi1.1 p h2 nd hnd
    · intro p hp nds hundp nd hnd
      exact hi1.2 p hp nds hundp nd hnd

/-- The PutCoords scan preserves the whole-cache invariant for sorted
well-formed input with cache-fresh identifiers. -/
theorem putLoop_inv (rest : List Node) :
    ∀ (s : CacheState) (pending : List Node) (cur : Int) (s2 : CacheState),
      putLoop s pending cur rest = some s2 → TableOk s → StoreOk s →
      CoordsInv (pending ++ rest) → NodesWF (pending ++ rest) →
      (∀ nd ∈ pending ++ rest, FreshId s nd.id) →
      TableOk s2 ∧ StoreOk s2 := by
  induction rest with
  | nil =>
    intro s pending cur s2 h ht hst hinv hwf hfresh
    rw [List.append_nil] at hinv hwf hfresh
    have h2 : flushRun s cur pending = some s2 := h
    obtain ⟨ht2, hst2, _⟩ := flushRun_inv s cur pending s2 h2 ht hst hinv hwf hfresh
    exact ⟨ht2, hst2⟩
  | cons n rest2 ih =>
    intro s pending cur s2 h ht hst hinv hwf hfresh
    by_cases hb : getBunchId n.id = cur
    · have h2 : putLoop s (pending ++ [n]) cur rest2 = some s2 := by
        unfold putLoop at h
        rw [if_pos hb] at h
        exact h
      have hassoc : (pending ++ [n]) ++ rest2 = pending ++ n :: rest2 := by simp
      exact ih s (pending ++ [n]) cur s2 h2 ht hst (by rw [hassoc]; exact hinv)
        (by rw [hassoc]; exact hwf) (by rw [hassoc]; exact hfresh)
    · have h2 : (match flushRun s cur pending with
          | none => none
          | some s3 => putLoop s3 [n] (getBunchId n.id) rest2) = some s2 := by
        unfold putLoop at h
        rw [if_neg hb] at h
        exact h
      rcases hfr : flushRun s cur pending with _ | s3
      · rw [hfr] at h2
        cases h2
      · rw [hfr] at h2
        have hpsub : pending.Sublist (pending ++ n :: rest2) :=
          List.sublist_append_left pending (n :: rest2)
        have htsub : (n :: rest2).Sublist (pending ++ n :: rest2) :=
          List.sublist_append_right pending (n :: rest2)
        obtain ⟨ht3, hst3, hfr3⟩ := flushRun_inv s cur pending s3 hfr ht hst
          (hinv.sublist hpsub)
          (fun nd hnd => hwf nd (hpsub.subset hnd))
          (fun nd hnd => hfresh nd (hpsub.subset hnd))
        have hcross := (List.pairwise_append.mp hinv).2.2
        apply ih s3 [n] (getBunchId n.id) s2 h2 ht3 hst3
          (hinv.sublist htsub)
          (fun nd hnd => hwf nd (htsub.subset hnd))
        intro nd hnd
        have hndin : nd ∈ n :: rest2 := hnd
        apply hfr3 nd.id (hfresh nd (htsub.subset hndin))
        intro x hx
        exact ne_of_lt (hcross x hx nd hndin)

/-- Claim C5, amended: loading a bunch through getBunch preserves the
invariant (sorted, duplicate-free) of every resident bunch, and PutCoords
preserves it for sorted well-formed input none of whose identifiers is
already present in the cache; inserting an already-present identifier
duplicates it (see the counterexample). -/
theorem c5_amended_invariant_preservation (s : CacheState) (hInv : Inv s) :
    C5Preserved s := by
  obtain ⟨ht, hst⟩ := hInv
  constructor
  · intro bid b s2 hgb
    obtain ⟨ht2, hst2, _, hbok, _⟩ := getBunch_inv s bid b s2 hgb ht hst
    exact ⟨⟨ht2, hst2⟩, hbok⟩
  · intro nodes s2 hpw hwf hfresh hput
    rcases nodes with _ | ⟨n, rest⟩
    · cases hput
    · have h2 : putLoop s [] (getBunchId n.id) (n :: rest) = some s2 := hput
      obtain ⟨ht2, hst2⟩ := putLoop_inv (n :: rest) s [] (getBunchId n.id) s2 h2 ht hst
        hpw hwf hfresh
      exact ⟨ht2, hst2⟩

theorem c5_amended_invariant_preservation_witness :
    (let c5w : CacheState :=
      { table := [(0, { id := 0, coords := [{ id := 1, long := 1, lat := 1 }],
                        needsWrite := false })],
        lruList := [0], store := [], freeNodes := [], capacity := 8,
        writeLog := [] }
    Inv c5w ∧ C5Preserved c5w) := by
  refine ⟨⟨by decide, ?_⟩, c5_amended_invariant_preservation _ ⟨by decide, ?_⟩⟩ <;>
    exact fun p hp => absurd hp (List.not_mem_nil p)

theorem c6_fill_way_all_or_nothing_witness :
    (let s6 : CacheState :=
      { table := [(0, { id := 0,
                        coords := [{ id := 1, long := 5, lat := 6 },
                                   { id := 2, long := 7, lat := 8 }],
                        needsWrite := false })],
        lruList := [0], store := [], freeNodes := [], capacity := 2,
        writeLog := [] }
    TableInv s6 ∧ ((s6.table.length : Int) ≤ s6.capacity) ∧
      (∀ r ∈ ([2, 1] : List Int), (tableGet s6.table (getBunchId r)).isSome = true) ∧
      C6Conc s6 { refs := [2, 1], nodes := [] }) :=
  ⟨by decide, by decide, by decide,
    c6_fill_way_all_or_nothing _ { refs := [2, 1], nodes := [] }
      (by decide) (by decide) (by decide)⟩

end Goposm
